import Mathlib

/-!
# Reduction benchmark (`reduction/main.cpp`): chunk planning, chunked reducer, harness

A shallow embedding of the parts of `reduction/main.cpp` that the chunk-partition,
chunked-reducer and harness properties talk about.

* Iterator ranges `[first, last)` over a `std::vector` are lists; `N = std::distance(first, last)`
  is the length of the list.
* `ptrdiff_t` / `unsigned` values are natural numbers.  Every product and sum formed by the
  planner is bounded by `N`, so no wrap-around can occur on the values the code computes.
* Behaviour the C++ standard leaves undefined (integer division by zero, reading past the end
  of the 64-entry index table, reading past the end of the dataset) is made explicit as a
  `Fault` result.
* `std::thread::hardware_concurrency()` is an input `C` of the model.
* The parallel `std::for_each_n` runs one task per table position; the tasks commit their
  atomic `sum += local_sum` in some total order, which the model takes as the argument `order`
  (a permutation of the positions `0 .. chunks-1`).
-/

namespace Reduction

/-! ## Data model -/

/-- Undefined behaviour of the C++ code, made observable. -/
inductive Fault where
  | divisionByZero
  | tableOverrun
  | rangeOverrun
  deriving DecidableEq, Repr

/-- The `chunk_size` and `chunks` locals of `std_par_chunked` (lines 98 and 99). -/
structure Plan where
  chunk_size : Nat
  chunks : Nat
  deriving DecidableEq, Repr

/-- The index table `chunk` of `std_par_chunked` (lines 89 to 92): the 64 entries `0 .. 63`. -/
def chunk : List Nat :=
  [ 0,1,2,3,4,5,6,7,8,9,10,11,12,13,14,15,16,17,18,19,20,21,22,23,24,25,26,27,28,29,30,31,
    32,33,34,35,36,37,38,39,40,41,42,43,44,45,46,47,48,49,50,51,52,53,54,55,56,57,58,59,60,61,62,63 ]

/-! ## Library primitives -/

/-- Integer division as the machine performs it: a zero divisor is undefined behaviour. -/
def idiv (a b : Nat) : Except Fault Nat :=
  if b = 0 then .error .divisionByZero else .ok (a / b)

/-- The call `std::accumulate(first, last, init)`: left-to-right accumulation with `+`. -/
def accumulate {T : Type} [Add T] (xs : List T) (init : T) : T :=
  xs.foldl (fun acc x => acc + x) init

/-- The call `std::reduce(first, last, init)` without an execution policy.  The standard leaves
the grouping of the additions open; the model takes the left-to-right grouping. -/
def reduce {T : Type} [Add T] (xs : List T) (init : T) : T :=
  xs.foldl (fun acc x => acc + x) init

/-! ## The strategies -/

/-- The strategy `sequential` (lines 41 to 47): `std::accumulate(first, last, T(0))`. -/
def sequential {T : Type} [Add T] [Zero T] (v : List T) : T :=
  accumulate v 0

/-- The strategies `std_par_mutex` and `std_par_atomic` perform one `sum += x` per element,
serialised by the lock or by the atomic; `order` is the order in which the elements are added
(a permutation of the dataset). -/
def std_par_mutex {T : Type} [Add T] [Zero T] (order : List T) : T :=
  order.foldl (fun sum x => sum + x) 0

/-- See `std_par_mutex`: the same shape with an atomic accumulator. -/
def std_par_atomic {T : Type} [Add T] [Zero T] (order : List T) : T :=
  order.foldl (fun sum x => sum + x) 0

/-- The divisor of line 98: `std::min<ptrdiff_t>(chunk.size(), hardware_concurrency() >> 1)`. -/
def slots (C : Nat) : Nat :=
  min chunk.length (C >>> 1)

/-- Lines 97 to 99 of `std_par_chunked`:
`chunk_size = N / min(64, C >> 1)` and `chunks = chunk_size ? N / chunk_size : 0`. -/
def plan (N C : Nat) : Except Fault Plan := do
  let chunk_size ← idiv N (slots C)
  let chunks ← if chunk_size ≠ 0 then idiv N chunk_size else pure 0
  pure ⟨chunk_size, chunks⟩

/-- The body of the lambda of lines 103 to 107, run for the table position `i`: read
`c = chunk[i]`, reduce the range `[first + c*chunk_size, first + c*chunk_size + chunk_size)`
locally and add the local sum to the shared accumulator `sum`. -/
def chunk_task {T : Type} [Add T] [Zero T] (v : List T) (chunk_size : Nat) (sum : T) (i : Nat) :
    Except Fault T :=
  match chunk[i]? with
  | none => .error .tableOverrun
  | some c =>
    if c * chunk_size + chunk_size ≤ v.length then
      let local_sum := reduce ((v.drop (c * chunk_size)).take chunk_size) (0 : T)
      .ok (sum + local_sum)
    else .error .rangeOverrun

/-- The strategy `std_par_chunked` (lines 86 to 111).  `order` lists the table positions
`0 .. chunks-1` visited by `std::for_each_n` in the order in which their tasks commit the
atomic add; the tail `[first + chunks*chunk_size, last)` is accumulated on top of the result. -/
def std_par_chunked {T : Type} [Add T] [Zero T] (order : List Nat) (v : List T) (C : Nat) :
    Except Fault T := do
  let p ← plan v.length C
  let sum ← order.foldlM (chunk_task v p.chunk_size) (0 : T)
  if p.chunks * p.chunk_size ≤ v.length then
    pure (accumulate (v.drop (p.chunks * p.chunk_size)) sum)
  else throw .rangeOverrun

/-! ## Single-precision addition on the values of the all-ones scenario

The benchmark's element type is `float`.  Sums of non-negative integer-valued floats are again
non-negative integer-valued floats (or `+inf`), so on these values binary32 addition is the exact
sum rounded to a 24-bit significand, ties to even. -/

/-- Non-negative integer-valued binary32 numbers, together with `+inf`. -/
inductive F32N where
  | val (n : Nat)
  | inf
  deriving DecidableEq, Repr

/-- Round a natural number to the nearest natural number with a 24-bit significand, ties to
even (the binary32 rounding of an exact non-negative integer result). -/
def roundN (n : Nat) : Nat :=
  if n < 2 ^ 24 then n
  else
    let e := Nat.log2 n - 23
    let q := n / 2 ^ e
    let r := n % 2 ^ e
    if 2 ^ (e - 1) < r ∨ (r = 2 ^ (e - 1) ∧ q % 2 = 1) then (q + 1) * 2 ^ e else q * 2 ^ e

/-- Binary32 addition on `F32N`: the rounded exact sum, overflowing to `+inf` at `2^128`. -/
def F32N.add : F32N → F32N → F32N
  | .val a, .val b => if roundN (a + b) < 2 ^ 128 then .val (roundN (a + b)) else .inf
  | _, _ => .inf

instance : Add F32N := ⟨F32N.add⟩

/-- The value `T(0)` for `T = float`. -/
instance : Zero F32N := ⟨.val 0⟩

/-- The rational value of a finite `F32N`. -/
def F32N.toRat? : F32N → Option ℚ
  | .val n => some (n : ℚ)
  | .inf => none

/-- The value `x` is finite and lies within `tol` of `target`. -/
def F32N.within (x : F32N) (target tol : ℚ) : Prop :=
  match x with
  | .val n => |(n : ℚ) - target| ≤ tol
  | .inf => False

/-- The dataset of the all-ones scenario: `n` elements, each `1.0f`. -/
def ones (n : Nat) : List F32N :=
  List.replicate n (.val 1)

/-! ## The benchmark harness -/

/-- The eight strategies that `main` runs, in the order of lines 191 to 198. -/
inductive StrategyId where
  | sequential
  | std_par_mutex
  | std_par_atomic
  | std_par_chunked
  | std_par_reduce
  | openmp
  | tbb_parallel_for
  | tbb_parallel_reduce
  deriving DecidableEq, Repr

/-- The text each strategy writes to `std::cout` when it is entered. -/
def StrategyId.label : StrategyId → String
  | .sequential => "sequential: "
  | .std_par_mutex => "std_par_mutex: "
  | .std_par_atomic => "std_par_atomic: "
  | .std_par_chunked => "std_par_chunked: "
  | .std_par_reduce => "std_reduce: "
  | .openmp => "openmp: "
  | .tbb_parallel_for => "tbb_parallel_for: "
  | .tbb_parallel_reduce => "tbb_parallel_reduce: "

/-- What the program writes to the console: the label a strategy prints on entry, the result
line `reduction` prints after the strategy returned (the elapsed time on that line is not
modelled), and the blank line `main` prints after a trial. -/
inductive Event (T : Type) where
  | label (s : StrategyId)
  | report (res : T)
  | blank
  deriving DecidableEq, Repr

/-- A strategy call that may throw: the lambdas that `main` hands to `reduction`. -/
abbrev Strategy (ε T : Type) := List T → Except ε T

/-- The eight lambdas of lines 191 to 198. -/
structure Strategies (ε T : Type) where
  sequential : Strategy ε T
  std_par_mutex : Strategy ε T
  std_par_atomic : Strategy ε T
  std_par_chunked : Strategy ε T
  std_par_reduce : Strategy ε T
  openmp : Strategy ε T
  tbb_parallel_for : Strategy ε T
  tbb_parallel_reduce : Strategy ε T

/-- The calls of one trial, in program order. -/
def Strategies.calls {ε T : Type} (S : Strategies ε T) : List (StrategyId × Strategy ε T) :=
  [ (.sequential, S.sequential), (.std_par_mutex, S.std_par_mutex),
    (.std_par_atomic, S.std_par_atomic), (.std_par_chunked, S.std_par_chunked),
    (.std_par_reduce, S.std_par_reduce), (.openmp, S.openmp),
    (.tbb_parallel_for, S.tbb_parallel_for), (.tbb_parallel_reduce, S.tbb_parallel_reduce) ]

/-- The function `reduction` (lines 172 to 180): call the strategy, which prints its label and
computes; when it returns, print the result line.  There is no handler: an exception thrown by
the strategy leaves `reduction` before the result line is printed.  `out` is the console so
far. -/
def reduction {ε T : Type} (id : StrategyId) (f : Strategy ε T) (v : List T)
    (out : List (Event T)) : Except ε T × List (Event T) :=
  match f v with
  | .error e => (.error e, out ++ [.label id])
  | .ok res => (.ok res, out ++ [.label id, .report res])

/-- The statements of the loop body of `main` run one after the other; an exception leaves the
sequence at the statement that threw. -/
def runCalls {ε T : Type} :
    List (StrategyId × Strategy ε T) → List T → List (Event T) → Except ε Unit × List (Event T)
  | [], _, out => (.ok (), out)
  | (id, f) :: rest, v, out =>
    match reduction id f v out with
    | (.error e, out1) => (.error e, out1)
    | (.ok _, out1) => runCalls rest v out1

/-- One iteration of the loop of `main` (lines 191 to 199). -/
def trial {ε T : Type} (S : Strategies ε T) (v : List T) (out : List (Event T)) :
    Except ε Unit × List (Event T) :=
  match runCalls S.calls v out with
  | (.error e, out1) => (.error e, out1)
  | (.ok _, out1) => (.ok (), out1 ++ [.blank])

/-- The loop `for (int i = 0; i < 3; ++i)` of `main`, with `n` iterations left. -/
def trials {ε T : Type} (S : Strategies ε T) (v : List T) :
    Nat → List (Event T) → Except ε Unit × List (Event T)
  | 0, out => (.ok (), out)
  | n + 1, out =>
    match trial S v out with
    | (.error e, out1) => (.error e, out1)
    | (.ok _, out1) => trials S v n out1

/-- The function `main` (lines 183 to 202) on the dataset `v`: three trials, then `return 0`.
An exception that reaches `main` ends the program. -/
def main {ε T : Type} (S : Strategies ε T) (v : List T) : Except ε Int × List (Event T) :=
  match trials S v 3 [] with
  | (.error e, out) => (.error e, out)
  | (.ok _, out) => (.ok 0, out)

/-- The console lines of a call sequence in which every listed call is made: the label of each
call, followed by its result line when the call returned. -/
def consoleOf {ε T : Type} (cs : List (StrategyId × Strategy ε T)) (v : List T) :
    List (Event T) :=
  cs.flatMap fun c =>
    match c.2 v with
    | .error _ => [.label c.1]
    | .ok res => [.label c.1, .report res]

/-- A run of the harness in which the second strategy throws (an injected worker exception)
and every other strategy returns the exact sum of the dataset. -/
def throwingMutex : Strategies Unit Int where
  sequential := fun v => .ok v.sum
  std_par_mutex := fun _ => .error ()
  std_par_atomic := fun v => .ok v.sum
  std_par_chunked := fun v => .ok v.sum
  std_par_reduce := fun v => .ok v.sum
  openmp := fun v => .ok v.sum
  tbb_parallel_for := fun v => .ok v.sum
  tbb_parallel_reduce := fun v => .ok v.sum

/-- The commit orders of the chunk tasks that `std::for_each_n` can produce on a dataset of
length `N`: the permutations of the table positions `0 .. chunks-1`. -/
def IsCommitOrder (order : List Nat) (N C : Nat) : Prop :=
  ∀ p : Plan, plan N C = .ok p → order.Perm (List.range p.chunks)

/-! ## The planner -/

theorem chunk_length : chunk.length = 64 := rfl

theorem chunk_eq_range : chunk = List.range 64 := by decide

theorem chunk_getElem? (i : Nat) : chunk[i]? = if i < 64 then some i else none := by
  rw [chunk_eq_range]
  split
  · next h => exact List.getElem?_range h
  · next h => exact List.getElem?_eq_none (by simpa using h)

theorem slots_eq (C : Nat) : slots C = min 64 (C / 2) := by
  simp [slots, chunk_length, Nat.shiftRight_eq_div_pow]

theorem slots_le (C : Nat) : slots C ≤ 64 := by
  rw [slots_eq]; exact Nat.min_le_left _ _

theorem slots_eq_zero_iff (C : Nat) : slots C = 0 ↔ C ≤ 1 := by
  rw [slots_eq]; omega

theorem plan_of_slots_pos (N C : Nat) (h : 1 ≤ slots C) :
    plan N C = .ok ⟨N / slots C, if N / slots C ≠ 0 then N / (N / slots C) else 0⟩ := by
  have hs : slots C ≠ 0 := by omega
  by_cases hc : N / slots C = 0
  · simp [plan, idiv, hs, hc, bind, Except.bind, pure, Except.pure]
  · simp [plan, idiv, hs, hc, bind, Except.bind, pure, Except.pure]

theorem plan_of_slots_zero (N C : Nat) (h : slots C = 0) :
    plan N C = .error .divisionByZero := by
  simp [plan, idiv, h, bind, Except.bind]

/-- The number of chunks never exceeds the dataset's length over the chunk size, so the chunks
fit into the dataset. -/
theorem chunks_mul_le (N s : Nat) :
    (if N / s ≠ 0 then N / (N / s) else 0) * (N / s) ≤ N := by
  split
  · exact Nat.div_mul_le_self N (N / s)
  · simp

/-- Characterisation of the chunk count: with `q = N / s > 0`, `N / q = s` exactly when the
remainder of `N` by `s` is below `q`. -/
theorem div_div_eq_iff (N s : Nat) (hq : 0 < N / s) :
    N / (N / s) = s ↔ N % s < N / s := by
  have hN : s * (N / s) + N % s = N := Nat.div_add_mod N s
  constructor
  · intro h
    have h1 : N < (N / (N / s) + 1) * (N / s) := by
      have := Nat.lt_succ_self (N / (N / s))
      exact (Nat.div_lt_iff_lt_mul hq).mp this
    rw [h] at h1
    have : (s + 1) * (N / s) = s * (N / s) + N / s := by ring
    omega
  · intro h
    apply Nat.div_eq_of_lt_le
    · calc s * (N / s) ≤ s * (N / s) + N % s := Nat.le_add_right _ _
        _ = N := hN
    · have : (s + 1) * (N / s) = s * (N / s) + N / s := by ring
      show N < (s + 1) * (N / s)
      omega

theorem mod_lt_div_of_sq_le (N s : Nat) (hs : 0 < s) (h : s * s ≤ N) : N % s < N / s := by
  have h1 : N % s < s := Nat.mod_lt N hs
  have h2 : s ≤ N / s := (Nat.le_div_iff_mul_le hs).mpr h
  omega

/-- C1: for every dataset length `N` and every concurrency hint `C` with
`slots = min(64, C/2) >= 1`, the planner of `std_par_chunked` returns
`chunkSize = N / slots` and `chunkCount = (chunkSize > 0 ? N / chunkSize : 0)`; the tail start
`chunkCount * chunkSize` is at most `N`, `chunkSize * chunkCount + tailLength = N` with
`tailLength = N - tailStart`, and `tailLength` is the number of elements of the range
`[first + chunks*chunk_size, last)` that the final `std::accumulate` visits. -/
theorem C1_chunk_partition (N C : Nat) (h : 1 ≤ min 64 (C / 2)) :
    ∃ p : Plan, plan N C = .ok p ∧
      p.chunk_size = N / min 64 (C / 2) ∧
      p.chunks = (if p.chunk_size > 0 then N / p.chunk_size else 0) ∧
      p.chunks * p.chunk_size ≤ N ∧
      p.chunk_size * p.chunks + (N - p.chunks * p.chunk_size) = N ∧
      ∀ (T : Type) (v : List T), v.length = N →
        (v.drop (p.chunks * p.chunk_size)).length = N - p.chunks * p.chunk_size := by
  have hs : 1 ≤ slots C := by rw [slots_eq]; exact h
  refine ⟨_, plan_of_slots_pos N C hs, ?_, ?_, ?_, ?_, ?_⟩
  · simp only [slots_eq]
  · simp only [Nat.pos_iff_ne_zero]
  · exact chunks_mul_le N (slots C)
  · have := chunks_mul_le N (slots C)
    simp only [] at this ⊢
    rw [Nat.mul_comm]
    omega
  · intro T v hv
    simp [hv]

theorem C1_chunk_partition_witness :
    1 ≤ min 64 (8 / 2) ∧
    ∃ p : Plan, plan 10 8 = .ok p ∧
      p.chunk_size = 10 / min 64 (8 / 2) ∧
      p.chunks = (if p.chunk_size > 0 then 10 / p.chunk_size else 0) ∧
      p.chunks * p.chunk_size ≤ 10 ∧
      p.chunk_size * p.chunks + (10 - p.chunks * p.chunk_size) = 10 ∧
      ∀ (T : Type) (v : List T), v.length = 10 →
        (v.drop (p.chunks * p.chunk_size)).length = 10 - p.chunks * p.chunk_size :=
  ⟨by decide, C1_chunk_partition 10 8 (by decide)⟩

/-- C10: for every `N` and slot count `s = min(64, C/2) >= 1` with `chunkSize = N / s > 0`, the
planner returns `chunkCount = N / chunkSize`, and `chunkCount = s` if and only if
`N mod s < N / s`; for every `N >= s*s` (in particular every `N >= 4096`) `chunkCount = s <= 64`
and every table position below `chunkCount` holds an entry of the 64-entry table; the tail
length `N - chunkCount*chunkSize` equals `N mod chunkSize` and is below `chunkSize`. -/
theorem C10_exact_chunk_count (N C : Nat) (hs : 1 ≤ min 64 (C / 2))
    (hq : 0 < N / min 64 (C / 2)) :
    ∃ p : Plan, plan N C = .ok p ∧
      p.chunk_size = N / min 64 (C / 2) ∧
      p.chunks = N / p.chunk_size ∧
      (p.chunks = min 64 (C / 2) ↔ N % min 64 (C / 2) < N / min 64 (C / 2)) ∧
      (min 64 (C / 2) * min 64 (C / 2) ≤ N →
        p.chunks = min 64 (C / 2) ∧ p.chunks ≤ 64 ∧ ∀ i, i < p.chunks → chunk[i]? = some i) ∧
      (4096 ≤ N → p.chunks = min 64 (C / 2)) ∧
      N - p.chunks * p.chunk_size = N % p.chunk_size ∧
      N - p.chunks * p.chunk_size < p.chunk_size := by
  have hs1 : 1 ≤ slots C := by rw [slots_eq]; exact hs
  have hq1 : N / slots C ≠ 0 := by rw [slots_eq]; omega
  have hq2 : 0 < N / slots C := Nat.pos_of_ne_zero hq1
  have hsq : slots C * slots C ≤ N → N / (N / slots C) = slots C := fun hle =>
    (div_div_eq_iff N (slots C) hq2).mpr (mod_lt_div_of_sq_le N (slots C) hs1 hle)
  have h64 : slots C ≤ 64 := slots_le C
  have hp := plan_of_slots_pos N C hs1
  rw [if_pos hq1] at hp
  refine ⟨_, hp, ?_, rfl, ?_, ?_, ?_, ?_, ?_⟩
  · simp only [slots_eq]
  · rw [← slots_eq]
    exact div_div_eq_iff N (slots C) hq2
  · rw [← slots_eq]
    intro hle
    have hc := hsq hle
    refine ⟨hc, ?_, ?_⟩
    · show N / (N / slots C) ≤ 64
      omega
    · intro i hi
      have hi : i < N / (N / slots C) := hi
      rw [chunk_getElem?, if_pos (by omega)]
  · rw [← slots_eq]
    intro hle
    apply hsq
    calc slots C * slots C ≤ 64 * 64 := Nat.mul_le_mul h64 h64
      _ ≤ N := by omega
  · show N - N / (N / slots C) * (N / slots C) = N % (N / slots C)
    have := Nat.div_add_mod N (N / slots C)
    rw [Nat.mul_comm] at this
    omega
  · show N - N / (N / slots C) * (N / slots C) < N / slots C
    have h1 := Nat.div_add_mod N (N / slots C)
    have h2 := Nat.mod_lt N hq2
    rw [Nat.mul_comm (N / (N / slots C)) (N / slots C)]
    omega

theorem C10_exact_chunk_count_witness :
    1 ≤ min 64 (8 / 2) ∧ 0 < 18 / min 64 (8 / 2) ∧
    ∃ p : Plan, plan 18 8 = .ok p ∧
      p.chunk_size = 18 / min 64 (8 / 2) ∧
      p.chunks = 18 / p.chunk_size ∧
      (p.chunks = min 64 (8 / 2) ↔ 18 % min 64 (8 / 2) < 18 / min 64 (8 / 2)) ∧
      (min 64 (8 / 2) * min 64 (8 / 2) ≤ 18 →
        p.chunks = min 64 (8 / 2) ∧ p.chunks ≤ 64 ∧ ∀ i, i < p.chunks → chunk[i]? = some i) ∧
      (4096 ≤ 18 → p.chunks = min 64 (8 / 2)) ∧
      18 - p.chunks * p.chunk_size = 18 % p.chunk_size ∧
      18 - p.chunks * p.chunk_size < p.chunk_size :=
  ⟨by decide, by decide, C10_exact_chunk_count 18 8 (by decide) (by decide)⟩

/-! ## The chunked reducer -/

theorem std_par_chunked_of_plan_error {T : Type} [Add T] [Zero T] (order : List Nat)
    (v : List T) (C : Nat) (e : Fault) (hp : plan v.length C = .error e) :
    std_par_chunked order v C = .error e := by
  simp [std_par_chunked, hp, bind, Except.bind]

theorem std_par_chunked_of_task_error {T : Type} [Add T] [Zero T] (order : List Nat)
    (v : List T) (C : Nat) (p : Plan) (e : Fault) (hp : plan v.length C = .ok p)
    (hsum : order.foldlM (chunk_task v p.chunk_size) (0 : T) = .error e) :
    std_par_chunked order v C = .error e := by
  simp only [std_par_chunked, hp, bind, Except.bind]
  rw [hsum]

theorem std_par_chunked_of_ok {T : Type} [Add T] [Zero T] (order : List Nat)
    (v : List T) (C : Nat) (p : Plan) (sum : T) (hp : plan v.length C = .ok p)
    (hsum : order.foldlM (chunk_task v p.chunk_size) (0 : T) = .ok sum)
    (ht : p.chunks * p.chunk_size ≤ v.length) :
    std_par_chunked order v C = .ok (accumulate (v.drop (p.chunks * p.chunk_size)) sum) := by
  simp only [std_par_chunked, hp, bind, Except.bind]
  rw [hsum]
  simp [ht, pure, Except.pure]

theorem perm_range_zero (order : List Nat) (h : order.Perm (List.range 0)) : order = [] := by
  simpa using h

theorem perm_range_one (order : List Nat) (h : order.Perm (List.range 1)) : order = [0] := by
  have h1 : List.range 1 = [0] := rfl
  rw [h1] at h
  exact List.perm_singleton.mp h

/-- C3 (behaviour of the code): for every dataset and every concurrency hint `C <= 1` the
divisor `min(64, C >> 1)` of line 98 is zero, so the planning step of `std_par_chunked` divides
by zero and the strategy returns no sum. -/
theorem C3_degenerate_hint_divides_by_zero {T : Type} [Add T] [Zero T] (order : List Nat)
    (v : List T) (C : Nat) (hC : C ≤ 1) :
    slots C = 0 ∧ plan v.length C = .error .divisionByZero ∧
      std_par_chunked order v C = .error .divisionByZero := by
  have h0 : slots C = 0 := (slots_eq_zero_iff C).mpr hC
  have hp := plan_of_slots_zero v.length C h0
  exact ⟨h0, hp, std_par_chunked_of_plan_error order v C _ hp⟩

theorem C3_degenerate_hint_divides_by_zero_witness :
    (1 : Nat) ≤ 1 ∧ slots 1 = 0 ∧ plan ([3, 1, 4] : List Int).length 1 = .error .divisionByZero ∧
      std_par_chunked [] ([3, 1, 4] : List Int) 1 = .error .divisionByZero :=
  ⟨by decide, C3_degenerate_hint_divides_by_zero [] [3, 1, 4] 1 (by decide)⟩

/-- C5: for every dataset of length `N` and every `C` with `slots = min(64, C/2) >= 1` and
`N < slots`, `std_par_chunked` computes `chunkSize = 0` and `chunkCount = 0`, so no chunk task
runs (the only commit order is the empty one), the tail is the entire dataset, and the result
is what `sequential` returns: the left-to-right accumulation of the dataset starting from 0. -/
theorem C5_small_dataset_is_all_tail {T : Type} [Add T] [Zero T] (order : List Nat)
    (v : List T) (C : Nat) (hs : 1 ≤ min 64 (C / 2)) (hN : v.length < min 64 (C / 2))
    (ho : order.Perm (List.range 0)) :
    plan v.length C = .ok ⟨0, 0⟩ ∧ order = [] ∧ v.drop (0 * 0) = v ∧
      std_par_chunked order v C = .ok (sequential v) ∧
      sequential v = v.foldl (fun acc x => acc + x) 0 := by
  have hs1 : 1 ≤ slots C := by rw [slots_eq]; exact hs
  have hq : v.length / slots C = 0 := by
    rw [slots_eq]; exact Nat.div_eq_of_lt hN
  have hp : plan v.length C = .ok ⟨0, 0⟩ := by
    rw [plan_of_slots_pos v.length C hs1, hq]; rfl
  have ho1 : order = [] := perm_range_zero order ho
  refine ⟨hp, ho1, rfl, ?_, rfl⟩
  subst ho1
  have := std_par_chunked_of_ok [] v C ⟨0, 0⟩ (0 : T) hp rfl (by simp)
  simpa [sequential] using this

theorem C5_small_dataset_is_all_tail_witness :
    1 ≤ min 64 (8 / 2) ∧ ([3, 1, 4] : List Int).length < min 64 (8 / 2) ∧
    ([] : List Nat).Perm (List.range 0) ∧
    plan ([3, 1, 4] : List Int).length 8 = .ok ⟨0, 0⟩ ∧ ([] : List Nat) = [] ∧
      ([3, 1, 4] : List Int).drop (0 * 0) = [3, 1, 4] ∧
      std_par_chunked [] ([3, 1, 4] : List Int) 8 = .ok (sequential [3, 1, 4]) ∧
      sequential ([3, 1, 4] : List Int) = ([3, 1, 4] : List Int).foldl (fun acc x => acc + x) 0 :=
  ⟨by decide, by decide, List.Perm.refl _,
    C5_small_dataset_is_all_tail [] [3, 1, 4] 8 (by decide) (by decide) (List.Perm.refl _)⟩

theorem plan_one_of_slots_eq_one (C : Nat) (h : slots C = 1) : plan 1 C = .ok ⟨1, 1⟩ := by
  rw [plan_of_slots_pos 1 C (by omega), h]; rfl

theorem plan_one_of_one_lt_slots (C : Nat) (h : 1 < slots C) : plan 1 C = .ok ⟨0, 0⟩ := by
  have hq : 1 / slots C = 0 := Nat.div_eq_of_lt h
  rw [plan_of_slots_pos 1 C (by omega), hq]; rfl

theorem isCommitOrder_singleton_two : IsCommitOrder [0] 1 2 := by
  intro p hp
  have h : plan 1 2 = .ok ⟨1, 1⟩ := rfl
  rw [h] at hp
  cases hp
  exact List.Perm.refl _

theorem accumulate_eq_add_sum {T : Type} [AddCommMonoid T] (xs : List T) (init : T) :
    accumulate xs init = init + xs.sum := by
  induction xs generalizing init with
  | nil => simp [accumulate]
  | cons x xs ih =>
    have h := ih (init + x)
    simp only [accumulate, List.foldl_cons, List.sum_cons] at h ⊢
    rw [h, add_assoc]

theorem reduce_zero_eq_sum {T : Type} [AddCommMonoid T] (xs : List T) :
    reduce xs (0 : T) = xs.sum := by
  have h := accumulate_eq_add_sum xs (0 : T)
  rw [zero_add] at h
  exact h

theorem sequential_eq_sum {T : Type} [AddCommMonoid T] (v : List T) : sequential v = v.sum := by
  have h := accumulate_eq_add_sum v (0 : T)
  rw [zero_add] at h
  exact h

theorem chunk_task_of_in_range {T : Type} [Add T] [Zero T] (v : List T) (cs : Nat) (sum : T)
    (i : Nat) (hi : i < 64) (hr : i * cs + cs ≤ v.length) :
    chunk_task v cs sum i = .ok (sum + reduce ((v.drop (i * cs)).take cs) (0 : T)) := by
  simp [chunk_task, chunk_getElem?, hi, hr]

theorem chunk_task_of_table_overrun {T : Type} [Add T] [Zero T] (v : List T) (cs : Nat) (sum : T)
    (i : Nat) (hi : 64 ≤ i) : chunk_task v cs sum i = .error .tableOverrun := by
  have h : ¬ i < 64 := by omega
  simp [chunk_task, chunk_getElem?, h]

theorem foldlM_chunk_task {T : Type} [AddCommMonoid T] (v : List T) (cs : Nat)
    (order : List Nat) (init : T)
    (h : ∀ i ∈ order, i < 64 ∧ i * cs + cs ≤ v.length) :
    order.foldlM (chunk_task v cs) init =
      .ok (init + (order.map fun i => ((v.drop (i * cs)).take cs).sum).sum) := by
  induction order generalizing init with
  | nil => simp [pure, Except.pure]
  | cons i rest ih =>
    have hi := h i (List.mem_cons_self i rest)
    have hrest : ∀ j ∈ rest, j < 64 ∧ j * cs + cs ≤ v.length :=
      fun j hj => h j (List.mem_cons_of_mem i hj)
    rw [List.foldlM_cons, chunk_task_of_in_range v cs init i hi.1 hi.2, reduce_zero_eq_sum]
    show List.foldlM (chunk_task v cs) (init + ((v.drop (i * cs)).take cs).sum) rest = _
    rw [ih _ hrest, List.map_cons, List.sum_cons, add_assoc]

theorem sum_chunks_range {T : Type} [AddCommMonoid T] (v : List T) (cs k : Nat) :
    ((List.range k).map fun i => ((v.drop (i * cs)).take cs).sum).sum = (v.take (k * cs)).sum := by
  induction k with
  | zero => simp
  | succ k ih =>
    rw [List.range_succ, List.map_append, List.sum_append, ih, Nat.succ_mul, List.take_add,
      List.sum_append]
    simp

theorem plan_ok_inv (N C : Nat) (p : Plan) (hp : plan N C = .ok p) :
    1 ≤ slots C ∧ p = ⟨N / slots C, if N / slots C ≠ 0 then N / (N / slots C) else 0⟩ := by
  by_cases h : slots C = 0
  · rw [plan_of_slots_zero N C h] at hp
    cases hp
  · have h1 : 1 ≤ slots C := Nat.one_le_iff_ne_zero.mpr h
    rw [plan_of_slots_pos N C h1] at hp
    cases hp
    exact ⟨h1, rfl⟩

theorem plan_chunks_mul_le (N C : Nat) (p : Plan) (hp : plan N C = .ok p) :
    p.chunks * p.chunk_size ≤ N := by
  obtain ⟨_, rfl⟩ := plan_ok_inv N C p hp
  exact chunks_mul_le N (slots C)

theorem chunk_in_range (N cs k i : Nat) (hk : k * cs ≤ N) (hi : i < k) : i * cs + cs ≤ N := by
  calc i * cs + cs = (i + 1) * cs := (Nat.succ_mul i cs).symm
    _ ≤ k * cs := Nat.mul_le_mul_right cs hi
    _ ≤ N := hk

/-- With exact (associative, commutative) addition, whenever the planner returns and the chunk
count stays within the 64-entry table, `std_par_chunked` returns the sum `sequential` returns,
for every commit order of the chunk tasks. -/
theorem std_par_chunked_eq_sequential {T : Type} [AddCommMonoid T] (order : List Nat)
    (v : List T) (C : Nat) (p : Plan) (hp : plan v.length C = .ok p) (h64 : p.chunks ≤ 64)
    (ho : order.Perm (List.range p.chunks)) :
    std_par_chunked order v C = .ok (sequential v) := by
  have hle := plan_chunks_mul_le v.length C p hp
  have hmem : ∀ i ∈ order, i < 64 ∧ i * p.chunk_size + p.chunk_size ≤ v.length := by
    intro i hi
    have hik : i < p.chunks := List.mem_range.mp (ho.mem_iff.mp hi)
    exact ⟨by omega, chunk_in_range v.length p.chunk_size p.chunks i hle hik⟩
  have hsum := foldlM_chunk_task v p.chunk_size order (0 : T) hmem
  rw [std_par_chunked_of_ok order v C p _ hp hsum hle, accumulate_eq_add_sum, zero_add,
    (ho.map _).sum_eq, sum_chunks_range, List.sum_take_add_sum_drop, sequential_eq_sum]

/-! ## The all-ones scenario in single precision -/

theorem roundN_of_lt (n : Nat) (h : n < 2 ^ 24) : roundN n = n := by
  unfold roundN
  rw [if_pos h]

theorem F32N.val_add_val (a b : Nat) (h : a + b < 2 ^ 24) :
    (F32N.val a + F32N.val b : F32N) = F32N.val (a + b) := by
  show F32N.add (F32N.val a) (F32N.val b) = F32N.val (a + b)
  have h1 : roundN (a + b) = a + b := roundN_of_lt (a + b) h
  have h2 : a + b < 2 ^ 128 := Nat.lt_of_lt_of_le h (by norm_num)
  show (if roundN (a + b) < 2 ^ 128 then F32N.val (roundN (a + b)) else F32N.inf) = _
  rw [h1, if_pos h2]

theorem foldl_ones (n k : Nat) (h : k + n < 2 ^ 24) :
    (ones n).foldl (fun acc x => acc + x) (F32N.val k) = F32N.val (k + n) := by
  induction n generalizing k with
  | zero => rfl
  | succ n ih =>
    have h1 : ones (n + 1) = F32N.val 1 :: ones n := rfl
    rw [h1, List.foldl_cons, F32N.val_add_val k 1 (by omega), ih (k + 1) (by omega)]
    congr 1
    omega

theorem ones_slice (N a b : Nat) (h : a + b ≤ N) : ((ones N).drop a).take b = ones b := by
  simp only [ones, List.drop_replicate, List.take_replicate]
  congr 1
  omega

theorem ones_drop (N a : Nat) : (ones N).drop a = ones (N - a) := by
  simp [ones, List.drop_replicate]

theorem ones_length (N : Nat) : (ones N).length = N := by
  simp [ones]

theorem chunk_task_ones (N cs acc i : Nat) (hi : i < 64) (hr : i * cs + cs ≤ N)
    (hb : acc + cs < 2 ^ 24) :
    chunk_task (ones N) cs (F32N.val acc) i = .ok (F32N.val (acc + cs)) := by
  rw [chunk_task_of_in_range (ones N) cs (F32N.val acc) i hi (by rw [ones_length]; exact hr),
    ones_slice N (i * cs) cs hr]
  have h0 : reduce (ones cs) (0 : F32N) = F32N.val (0 + cs) := foldl_ones cs 0 (by omega)
  rw [h0, Nat.zero_add, F32N.val_add_val acc cs hb]

theorem foldlM_chunk_task_ones (N cs : Nat) (order : List Nat) (acc : Nat)
    (h : ∀ i ∈ order, i < 64 ∧ i * cs + cs ≤ N) (hb : acc + order.length * cs < 2 ^ 24) :
    order.foldlM (chunk_task (ones N) cs) (F32N.val acc) =
      .ok (F32N.val (acc + order.length * cs)) := by
  induction order generalizing acc with
  | nil => simp [pure, Except.pure]
  | cons i rest ih =>
    have hi := h i (List.mem_cons_self i rest)
    have hrest : ∀ j ∈ rest, j < 64 ∧ j * cs + cs ≤ N :=
      fun j hj => h j (List.mem_cons_of_mem i hj)
    have hlen : (i :: rest).length * cs = cs + rest.length * cs := by
      rw [List.length_cons, Nat.succ_mul, Nat.add_comm]
    rw [hlen] at hb ⊢
    rw [List.foldlM_cons, chunk_task_ones N cs acc i hi.1 hi.2 (by omega)]
    show List.foldlM (chunk_task (ones N) cs) (F32N.val (acc + cs)) rest = _
    rw [ih (acc + cs) hrest (by omega), Nat.add_assoc]

/-- On a dataset of `N < 2^24` ones, whenever the planner returns and the chunk count stays
within the table, every commit order yields exactly `N` in single precision. -/
theorem std_par_chunked_ones (N C : Nat) (order : List Nat) (p : Plan) (hN : N < 2 ^ 24)
    (hp : plan N C = .ok p) (h64 : p.chunks ≤ 64) (ho : order.Perm (List.range p.chunks)) :
    std_par_chunked order (ones N) C = .ok (F32N.val N) := by
  have hle := plan_chunks_mul_le N C p hp
  have hmem : ∀ i ∈ order, i < 64 ∧ i * p.chunk_size + p.chunk_size ≤ N := by
    intro i hi
    have hik : i < p.chunks := List.mem_range.mp (ho.mem_iff.mp hi)
    exact ⟨by omega, chunk_in_range N p.chunk_size p.chunks i hle hik⟩
  have hlen : order.length = p.chunks := by rw [ho.length_eq, List.length_range]
  have hsum := foldlM_chunk_task_ones N p.chunk_size order 0 hmem (by rw [hlen]; omega)
  rw [hlen, Nat.zero_add] at hsum
  have hp1 : plan (ones N).length C = .ok p := by rw [ones_length]; exact hp
  have hle1 : p.chunks * p.chunk_size ≤ (ones N).length := by rw [ones_length]; exact hle
  rw [std_par_chunked_of_ok order (ones N) C p _ hp1 hsum hle1, ones_drop]
  have := foldl_ones (N - p.chunks * p.chunk_size) (p.chunks * p.chunk_size) (by omega)
  rw [accumulate, this]
  congr 2
  omega

theorem plan_hundred_thousand (C : Nat) (hC : 2 ≤ C) :
    plan 100000 C = .ok ⟨100000 / min 64 (C / 2), min 64 (C / 2)⟩ := by
  have hs1 : 1 ≤ slots C := by rw [slots_eq]; omega
  have h64 : slots C ≤ 64 := slots_le C
  have hsq : slots C * slots C ≤ 100000 :=
    calc slots C * slots C ≤ 64 * 64 := Nat.mul_le_mul h64 h64
      _ ≤ 100000 := by norm_num
  have hq : 0 < 100000 / slots C := by
    apply Nat.div_pos _ hs1
    omega
  have hc : 100000 / (100000 / slots C) = slots C :=
    (div_div_eq_iff 100000 (slots C) hq).mpr (mod_lt_div_of_sq_le 100000 (slots C) hs1 hsq)
  rw [plan_of_slots_pos 100000 C hs1, if_pos (Nat.pos_iff_ne_zero.mp hq), hc, slots_eq]

theorem isCommitOrder_hundred_thousand_eight : IsCommitOrder [2, 0, 3, 1] 100000 8 := by
  intro p hp
  have h : plan 100000 8 = .ok ⟨25000, 4⟩ := rfl
  rw [h] at hp
  cases hp
  decide

/-- On the empty dataset `std_par_chunked` returns 0 whenever `C >= 2`. -/
theorem std_par_chunked_nil_of_two_le {T : Type} [Add T] [Zero T] (C : Nat) (hC : 2 ≤ C) :
    plan 0 C = .ok ⟨0, 0⟩ ∧ std_par_chunked [] ([] : List T) C = .ok 0 := by
  have hs1 : 1 ≤ slots C := by rw [slots_eq]; omega
  have hp : plan 0 C = .ok ⟨0, 0⟩ := by
    rw [plan_of_slots_pos 0 C hs1, Nat.zero_div]; rfl
  exact ⟨hp, std_par_chunked_of_ok [] ([] : List T) C ⟨0, 0⟩ (0 : T) hp rfl (by simp)⟩

theorem foldlM_chunk_task_overrun {T : Type} [Add T] [Zero T] (v : List T) (cs : Nat)
    (order : List Nat) (init : T) (hr : ∀ i ∈ order, i * cs + cs ≤ v.length)
    (hbig : ∃ i ∈ order, 64 ≤ i) :
    order.foldlM (chunk_task v cs) init = .error .tableOverrun := by
  induction order generalizing init with
  | nil =>
    obtain ⟨i, hi, _⟩ := hbig
    cases hi
  | cons i rest ih =>
    rw [List.foldlM_cons]
    by_cases h64 : 64 ≤ i
    · rw [chunk_task_of_table_overrun v cs init i h64]
      rfl
    · rw [chunk_task_of_in_range v cs init i (by omega) (hr i (List.mem_cons_self i rest))]
      have hrest : ∃ j ∈ rest, 64 ≤ j := by
        obtain ⟨j, hj, hj64⟩ := hbig
        rcases List.mem_cons.mp hj with h | h
        · subst h; exact absurd hj64 h64
        · exact ⟨j, h, hj64⟩
      exact ih _ (fun j hj => hr j (List.mem_cons_of_mem i hj)) hrest

/-- Whenever the planner returns more than 64 chunks, every commit order makes `std_par_chunked`
read past the end of the table. -/
theorem std_par_chunked_table_overrun {T : Type} [Add T] [Zero T] (order : List Nat)
    (v : List T) (C : Nat) (p : Plan) (hp : plan v.length C = .ok p) (h64 : 64 < p.chunks)
    (ho : order.Perm (List.range p.chunks)) :
    std_par_chunked order v C = .error .tableOverrun := by
  have hle := plan_chunks_mul_le v.length C p hp
  apply std_par_chunked_of_task_error order v C p _ hp
  apply foldlM_chunk_task_overrun
  · intro i hi
    have hik : i < p.chunks := List.mem_range.mp (ho.mem_iff.mp hi)
    exact chunk_in_range v.length p.chunk_size p.chunks i hle hik
  · exact ⟨64, ho.mem_iff.mpr (List.mem_range.mpr h64), Nat.le_refl 64⟩

/-- Whenever the planner returns, the chunk count stays below twice the slot count. -/
theorem plan_chunks_lt_two_mul_slots (N C : Nat) (p : Plan) (hp : plan N C = .ok p) :
    p.chunks < 2 * slots C := by
  obtain ⟨hs, rfl⟩ := plan_ok_inv N C p hp
  show (if N / slots C ≠ 0 then N / (N / slots C) else 0) < 2 * slots C
  split
  · next hq =>
    have hq1 : 0 < N / slots C := Nat.pos_of_ne_zero hq
    rw [Nat.div_lt_iff_lt_mul hq1]
    have h1 := Nat.div_add_mod N (slots C)
    have h2 : N % slots C < slots C := Nat.mod_lt N hs
    have h3 : slots C * 1 ≤ slots C * (N / slots C) := Nat.mul_le_mul_left _ hq1
    have h4 : 2 * slots C * (N / slots C) = slots C * (N / slots C) + slots C * (N / slots C) := by
      ring
    omega
  · omega

/-- C2 (behaviour of the code): on a dataset of 65 elements with `hardware_concurrency() = 66`
the planner computes `chunk_size = 1` and `chunks = 65`, which exceeds both
`min(64, max(1, C/2)) = 33` and the 64 entries of the table `chunk`: position 64 of the table
does not exist.  With `N = 3` and `C = 4` the count is 3 against a bound of 2. -/
theorem C2_chunk_count_exceeds_bound :
    plan 65 66 = .ok ⟨1, 65⟩ ∧ min 64 (max 1 (66 / 2)) = 33 ∧
      ¬ (65 ≤ min 64 (max 1 (66 / 2))) ∧ chunk.length = 64 ∧ ¬ (65 ≤ chunk.length) ∧
      chunk[64]? = none ∧
      plan 3 4 = .ok ⟨1, 3⟩ ∧ ¬ (3 ≤ min 64 (max 1 (4 / 2))) := by
  refine ⟨rfl, by decide, by decide, rfl, by decide, rfl, rfl, by decide⟩

/-- C4 (behaviour of the code): on the dataset of 65 ones `sequential` returns 65, while
`std_par_chunked` with `hardware_concurrency() = 66` reads past the end of the 64-entry table
and with `hardware_concurrency() = 1` (or 0) divides by zero; neither call returns a sum. -/
theorem C4_chunked_has_no_result :
    sequential (List.replicate 65 (1 : Int)) = 65 ∧
      std_par_chunked (List.range 65) (List.replicate 65 (1 : Int)) 66 = .error .tableOverrun ∧
      std_par_chunked [] (List.replicate 65 (1 : Int)) 1 = .error .divisionByZero ∧
      std_par_chunked [] (List.replicate 65 (1 : Int)) 0 = .error .divisionByZero := by
  refine ⟨rfl, rfl, rfl, rfl⟩

/-- C8 (behaviour of the code): on the empty dataset `sequential` returns 0, while
`std_par_chunked` with `hardware_concurrency()` equal to 1 or 0 evaluates `0 / 0` on line 98
and returns nothing. -/
theorem C8_empty_dataset_divides_by_zero :
    sequential ([] : List Int) = 0 ∧
      slots 1 = 0 ∧ plan ([] : List Int).length 1 = .error .divisionByZero ∧
      std_par_chunked [] ([] : List Int) 1 = .error .divisionByZero ∧
      std_par_chunked [] ([] : List Int) 0 = .error .divisionByZero := by
  refine ⟨rfl, rfl, rfl, rfl, rfl⟩

/-! ## The harness -/

theorem reduction_of_error {ε T : Type} (id : StrategyId) (f : Strategy ε T) (v : List T)
    (out : List (Event T)) (e : ε) (h : f v = .error e) :
    reduction id f v out = (.error e, out ++ [.label id]) := by
  simp [reduction, h]

theorem reduction_of_ok {ε T : Type} (id : StrategyId) (f : Strategy ε T) (v : List T)
    (out : List (Event T)) (r : T) (h : f v = .ok r) :
    reduction id f v out = (.ok r, out ++ [.label id, .report r]) := by
  simp [reduction, h]

theorem runCalls_stops_at_failure {ε T : Type} (init rest : List (StrategyId × Strategy ε T))
    (id : StrategyId) (f : Strategy ε T) (v : List T) (out : List (Event T)) (e : ε)
    (hok : ∀ c ∈ init, ∃ r, c.2 v = .ok r) (hfail : f v = .error e) :
    runCalls (init ++ (id, f) :: rest) v out =
      (.error e, out ++ consoleOf init v ++ [.label id]) := by
  induction init generalizing out with
  | nil =>
    simp [runCalls, reduction_of_error id f v out e hfail, consoleOf]
  | cons c init ih =>
    obtain ⟨r, hr⟩ := hok c (List.mem_cons_self c init)
    have hok1 : ∀ d ∈ init, ∃ r, d.2 v = .ok r :=
      fun d hd => hok d (List.mem_cons_of_mem c hd)
    obtain ⟨cid, cf⟩ := c
    have hr1 : cf v = .ok r := hr
    have hcons : consoleOf ((cid, cf) :: init) v = [.label cid, .report r] ++ consoleOf init v := by
      simp [consoleOf, hr1]
    rw [List.cons_append, runCalls, reduction_of_ok cid cf v out r hr1]
    show runCalls (init ++ (id, f) :: rest) v (out ++ [.label cid, .report r]) = _
    rw [ih _ hok1, hcons]
    simp

theorem label_mem_consoleOf {ε T : Type} (cs : List (StrategyId × Strategy ε T)) (v : List T)
    (s : StrategyId) (h : Event.label s ∈ consoleOf cs v) : s ∈ cs.map Prod.fst := by
  induction cs with
  | nil => simp [consoleOf] at h
  | cons c cs ih =>
    have hc : consoleOf (c :: cs) v = consoleOf [c] v ++ consoleOf cs v := by
      simp [consoleOf]
    rw [hc, List.mem_append] at h
    rw [List.map_cons, List.mem_cons]
    rcases h with h | h
    · left
      simp only [consoleOf, List.flatMap_cons, List.flatMap_nil, List.append_nil] at h
      split at h <;> simp at h <;> exact h
    · right
      exact ih h

theorem calls_ids {ε T : Type} (S : Strategies ε T) :
    S.calls.map Prod.fst =
      [.sequential, .std_par_mutex, .std_par_atomic, .std_par_chunked, .std_par_reduce,
        .openmp, .tbb_parallel_for, .tbb_parallel_reduce] := rfl

theorem calls_ids_nodup {ε T : Type} (S : Strategies ε T) : (S.calls.map Prod.fst).Nodup := by
  rw [calls_ids]; decide

theorem main_of_first_trial_error {ε T : Type} (S : Strategies ε T) (v : List T) (e : ε)
    (out : List (Event T)) (h : runCalls S.calls v [] = (.error e, out)) :
    main S v = (.error e, out) := by
  simp [main, trials, trial, h]

/-- C9 (refuted as stated): in the run where `std_par_mutex` throws, `main` ends with the
exception after printing the line of `sequential` and the label of `std_par_mutex`; none of
the six strategies that come after the failing one is entered or reported. -/
theorem C9_isolation_counterexample :
    main throwingMutex [1, 2, 3] =
        (.error (), [.label .sequential, .report 6, .label .std_par_mutex]) ∧
      ¬ (∀ s ∈ [StrategyId.std_par_atomic, .std_par_chunked, .std_par_reduce, .openmp,
            .tbb_parallel_for, .tbb_parallel_reduce],
          Event.label s ∈ (main throwingMutex [1, 2, 3]).2) := by
  have h : main throwingMutex [1, 2, 3] =
      (.error (), [.label .sequential, .report 6, .label .std_par_mutex]) := rfl
  refine ⟨h, ?_⟩
  rw [h]
  decide

/-- C9 (amended): the trial loop of `main` has no handler.  When the strategies called before
some strategy return and that strategy throws, `main` ends with that exception; the console
holds the label and result line of each earlier strategy followed by the label of the failing
one, and no strategy that comes after the failing one is entered or reported. -/
theorem C9_failure_ends_the_run {ε T : Type} (S : Strategies ε T) (v : List T)
    (init rest : List (StrategyId × Strategy ε T)) (id : StrategyId) (f : Strategy ε T) (e : ε)
    (hsplit : S.calls = init ++ (id, f) :: rest)
    (hok : ∀ c ∈ init, ∃ r, c.2 v = .ok r)
    (hfail : f v = .error e) :
    main S v = (.error e, consoleOf init v ++ [.label id]) ∧
      ∀ c ∈ rest, Event.label c.1 ∉ (main S v).2 := by
  have hrun : runCalls S.calls v [] = (.error e, consoleOf init v ++ [.label id]) := by
    rw [hsplit, runCalls_stops_at_failure init rest id f v [] e hok hfail, List.nil_append]
  have hmain := main_of_first_trial_error S v e _ hrun
  refine ⟨hmain, ?_⟩
  intro c hc hmem
  rw [hmain] at hmem
  have hnd := calls_ids_nodup S
  rw [hsplit, List.map_append, List.map_cons, List.nodup_append] at hnd
  obtain ⟨_, hnd2, hdis⟩ := hnd
  have hcrest : c.1 ∈ rest.map Prod.fst := List.mem_map_of_mem Prod.fst hc
  rcases List.mem_append.mp hmem with h1 | h1
  · have hinit := label_mem_consoleOf init v c.1 h1
    exact hdis hinit (List.mem_cons_of_mem _ hcrest)
  · have hid : c.1 = id := by simpa using h1
    rw [List.nodup_cons] at hnd2
    exact hnd2.1 (hid ▸ hcrest)

theorem C9_failure_ends_the_run_witness :
    throwingMutex.calls =
        [(StrategyId.sequential, throwingMutex.sequential)] ++
          (StrategyId.std_par_mutex, throwingMutex.std_par_mutex) ::
            throwingMutex.calls.drop 2 ∧
      (∀ c ∈ [(StrategyId.sequential, throwingMutex.sequential)],
        ∃ r, c.2 [1, 2, 3] = .ok r) ∧
      throwingMutex.std_par_mutex [1, 2, 3] = .error () ∧
      main throwingMutex [1, 2, 3] =
        (.error (), consoleOf [(StrategyId.sequential, throwingMutex.sequential)] [1, 2, 3] ++
          [.label .std_par_mutex]) ∧
      ∀ c ∈ throwingMutex.calls.drop 2, Event.label c.1 ∉ (main throwingMutex [1, 2, 3]).2 :=
  have hok : ∀ c ∈ [(StrategyId.sequential, throwingMutex.sequential)],
      ∃ r, c.2 [1, 2, 3] = .ok r := by
    intro c hc
    rw [List.mem_singleton] at hc
    subst hc
    exact ⟨6, rfl⟩
  ⟨rfl, hok, rfl,
    C9_failure_ends_the_run throwingMutex [1, 2, 3]
      [(StrategyId.sequential, throwingMutex.sequential)] (throwingMutex.calls.drop 2)
      StrategyId.std_par_mutex throwingMutex.std_par_mutex () rfl hok rfl⟩

end Reduction
